import Mathlib

/-!
# Verification of the `xtree` directory-tree printer

Shallow embedding of the parts of the `xtree` C++ sources (main.cpp,
src/xtree_tools/git.cpp, src/xtree_tools/printer.cpp, the utils translation
unit, include/xtree/*.h) that the specification claims are about, together
with theorems settling each claim.

C++ `std::string` values are embedded as `List Char` (named `Str` below);
`std::unordered_map<std::string, V>` is embedded as the function type
`Str → Option V` updated pointwise.  Recursions that in C++ run over the
file system or over shrinking strings are given explicit fuel so that every
definition reduces by kernel computation; each such definition notes the
fuel discipline and the fuel value that makes it agree with the source.
-/

namespace Xtree

/-- Embedding of C++ `std::string`: a list of characters. -/
abbrev Str := List Char

/-- The whitespace set `" \t\n\r"` used by `trim` in git.cpp and by
`parse_ignore_patterns` in the utils translation unit. -/
def isWs (c : Char) : Bool := c = ' ' || c = '\t' || c = '\n' || c = '\r'

/-- `trim` from git.cpp: drop the characters of `" \t\n\r"` from both ends
(`find_first_not_of` / `find_last_not_of` followed by `substr`). -/
def trim (s : Str) : Str := ((s.dropWhile isWs).reverse.dropWhile isWs).reverse

/-- `FileGitInfo` from include/xtree/git.h: two porcelain status columns
`x` (from `line[0]`, the index/staged column) and `y` (from `line[1]`, the
worktree/unstaged column), the derived display `status`, the `ignored`
flag, and the last-commit `author` and `date` strings.  Field defaults are
the C++ member initializers. -/
structure FileGitInfo where
  x : Char := ' '
  y : Char := ' '
  status : Char := '?'
  ignored : Bool := false
  author : Str := []
  date : Str := []
deriving DecidableEq, Repr

/-- Embedding of `std::unordered_map<std::string, FileGitInfo>` as a
pointwise-updated function. -/
abbrev FMap := Str → Option FileGitInfo

/-- Embedding of `std::unordered_map<std::string, char>` (the `dirStatus`
table). -/
abbrev DMap := Str → Option Char

/-- Map update `m[key] = v`. -/
def mapInsert {V : Type} (m : Str → Option V) (key : Str) (v : V) :
    Str → Option V :=
  fun k => if k = key then some v else m k

/-- The empty map. -/
def mapEmpty {V : Type} : Str → Option V := fun _ => none

/-- First index of the pattern `pat` inside a string, i.e.
`std::string::find` for a string needle. -/
def findSub (pat : Str) : Str → Option Nat
  | [] => if pat.isPrefixOf ([] : Str) then some 0 else none
  | c :: rest =>
    if pat.isPrefixOf (c :: rest) then some 0
    else (findSub pat rest).map (· + 1)

/-- ` -> ` rename-arrow handling from git.cpp (`path.find(" -> ")`, then
`path = path.substr(arrow + 4)`). -/
def stripArrow (p : Str) : Str :=
  match findSub (' ' :: '-' :: '>' :: ' ' :: []) p with
  | none => p
  | some arrow => p.drop (arrow + 4)

/-- One iteration of the porcelain-status parsing loop in
`get_git_status` (git.cpp lines 84–110): from a non-empty line produce the
`FileGitInfo` record and the (untrimmed) path text.  `substr(3)` is
embedded as `List.drop 3` (total; C++ `substr` would throw only on a line
that is exactly `"??"`, which porcelain output never produces).  Returns
`none` for lines the loop skips before building a record (empty lines). -/
def parseStatusLine (line : Str) : Option (FileGitInfo × Str) :=
  if line = [] then none
  else if line.take 2 = ('?' :: '?' :: []) then
    some ({ x := ' ', y := '?', status := 'U' }, line.drop 3)
  else if 3 ≤ line.length then
    let x := line.getD 0 ' '
    let y := line.getD 1 ' '
    let st := if y ≠ ' ' then y else x
    some ({ x := x, y := y, status := st }, stripArrow (line.drop 3))
  else
    -- a line of length 1 or 2 that is not "??": `info` keeps its member
    -- initializers and `path` stays empty, so the entry is discarded below
    some ({ }, [])

/-- Processing of one porcelain line including the final
`path = trim(path); if (!path.empty()) fileStatus[path] = info;`. -/
def applyStatusLine (m : FMap) (line : Str) : FMap :=
  match parseStatusLine line with
  | none => m
  | some (info, p) =>
    let p' := trim p
    if p' = [] then m else mapInsert m p' info

/-- The whole porcelain-status parsing loop over the output lines. -/
def applyStatusLines (m : FMap) (lines : List Str) : FMap :=
  lines.foldl applyStatusLine m

/-- One iteration of the ignored-file loop in `get_git_status` (git.cpp
lines 116–131): trim the line, skip if empty, then either create a fresh
record marked ignored with status `'I'` or mark the existing record
ignored and overwrite its status with `'I'`. -/
def applyIgnoredLine (m : FMap) (line : Str) : FMap :=
  let l := trim line
  if l = [] then m
  else
    match m l with
    | none => mapInsert m l { ignored := true, status := 'I' }
    | some info => mapInsert m l { info with ignored := true, status := 'I' }

/-- The whole ignored-file enumeration loop. -/
def applyIgnoredLines (m : FMap) (lines : List Str) : FMap :=
  lines.foldl applyIgnoredLine m

/-! ## Directory rollup (git.cpp lines 194–228) -/

/-- The `priority` lambda from git.cpp: `M`=5, `A`=4, `D`=3, `R`=2, `C`=1,
`U`=0, `I`=-2, anything else `-1`. -/
def priority (c : Char) : Int :=
  if c = 'M' then 5
  else if c = 'A' then 4
  else if c = 'D' then 3
  else if c = 'R' then 2
  else if c = 'C' then 1
  else if c = 'U' then 0
  else if c = 'I' then -2
  else -1

/-- Index of the last `'/'` in a string (`find_last_of('/')`). -/
def findLastSlash : Str → Option Nat
  | [] => none
  | c :: rest =>
    match findLastSlash rest with
    | some k => some (k + 1)
    | none => if c = '/' then some 0 else none

/-- One step of the ancestor walk: `fullPath.substr(0, find_last_of('/'))`,
or the empty string when there is no `'/'`. -/
def parentDir (p : Str) : Str :=
  match findLastSlash p with
  | none => []
  | some k => p.take k

/-- The sequence of directories visited by the ancestor-walk loop for one
file path: strip the last component, record the result, stop after
recording the empty string.  Fueled structural recursion; the parent of a
non-empty path is strictly shorter, so fuel `p.length + 1` always
suffices (`ancestors` below). -/
def ancestorsAux : Nat → Str → List Str
  | 0, _ => []
  | fuel + 1, p =>
    let q := parentDir p
    if q = [] then [q] else q :: ancestorsAux fuel q

/-- The directories whose rollup entry the loop updates for file `p`. -/
def ancestors (p : Str) : List Str := ancestorsAux (p.length + 1) p

/-- The rollup update for one directory key: overwrite when absent or when
the file's status has strictly greater priority. -/
def updateOne (st : Char) (m : DMap) (d : Str) : DMap :=
  match m d with
  | none => mapInsert m d st
  | some c => if priority c < priority st then mapInsert m d st else m

/-- The inner ancestor-walk loop for one `(file, status)` pair. -/
def processFile (m : DMap) (pr : Str × Char) : DMap :=
  (ancestors pr.1).foldl (updateOne pr.2) m

/-- The whole rollup loop (git.cpp lines 210–228) over the `(path, status)`
pairs of the `fileStatus` table, given as a list in the (unspecified)
iteration order of the unordered map. -/
def buildDirStatus (files : List (Str × Char)) : DMap :=
  files.foldl processFile mapEmpty

/-! ## Author/date enrichment (git.cpp lines 133–192)

The two git-log invocations are passed in as oracle functions `batchQ`
(output of `git log -1 --format='%an|%ad' --date=short -- <batch>`)
and `singleQ` (the same for a single path). -/

/-- Parse a `author|date` payload: split at the first `'|'`
(`std::string::find('|')`); trim the date and truncate it to its first 10
characters when it has at least 10.  Returns `none` when there is no
`'|'`, in which case the source assigns nothing. -/
def parsePipe (out : Str) : Option (Str × Str) :=
  match findSub ('|' :: []) out with
  | none => none
  | some i =>
    let author := out.take i
    let date0 := trim (out.drop (i + 1))
    let date := if 10 ≤ date0.length then date0.take 10 else date0
    some (author, date)

/-- Store author/date into the record of `p`, when present
(`fileStatus.find` then field assignment). -/
def assignMeta (m : FMap) (p : Str) (author date : Str) : FMap :=
  match m p with
  | none => m
  | some info => mapInsert m p { info with author := author, date := date }

/-- The per-path fallback body for one path: run the single-path query;
if its output is non-empty and contains `'|'`, assign the parsed
author/date. -/
def singleStep (singleQ : Str → Str) (m : FMap) (p : Str) : FMap :=
  let out := singleQ p
  if out = [] then m
  else
    match parsePipe out with
    | none => m
    | some (a, d) => assignMeta m p a d

/-- The body of the batching loop for one batch of paths (git.cpp lines
140–191): run the batched query; fall back to per-path queries when its
output is empty or contains a `'\n'` character
(`out.find('\n') != std::string::npos`); otherwise assign the single
parsed author/date to every path of the batch. -/
def processBatch (batchQ : List Str → Str) (singleQ : Str → Str)
    (m : FMap) (batch : List Str) : FMap :=
  let out := batchQ batch
  if out = [] ∨ '\n' ∈ out then
    batch.foldl (singleStep singleQ) m
  else
    match parsePipe out with
    | none => m
    | some (a, d) => batch.foldl (fun m p => assignMeta m p a d) m

/-- Split a path list into consecutive batches (`for (i = 0; i <
filePaths.size(); i += BATCH_SIZE)` with `BATCH_SIZE = 50`).  Fueled; each
step removes at least one element, so fuel `l.length` suffices
(`batchesOf50` below). -/
def batchesAux : Nat → List Str → List (List Str)
  | 0, _ => []
  | fuel + 1, l =>
    if l = [] then [] else l.take 50 :: batchesAux fuel (l.drop 50)

/-- The batches of 50 paths the enrichment loop processes. -/
def batchesOf50 (l : List Str) : List (List Str) := batchesAux l.length l

/-- The whole author/date enrichment pass. -/
def enrich (batchQ : List Str → Str) (singleQ : Str → Str)
    (paths : List Str) (m : FMap) : FMap :=
  (batchesOf50 paths).foldl (processBatch batchQ singleQ) m

/-! ## `std::getline` splitting

`get_git_status` reads its subprocess output line by line with
`std::getline`; the same helper with delimiter `','` drives
`parse_ignore_patterns`. -/

/-- The lines `std::getline` yields from a buffer with delimiter `delim`:
one token per delimiter, a trailing delimiter produces no extra empty
token, an empty buffer produces no token.  Fueled; each step consumes at
least one character, so fuel `s.length` suffices (`splitBy` below). -/
def splitByAux (delim : Char) : Nat → Str → List Str
  | 0, _ => []
  | fuel + 1, s =>
    if s = [] then []
    else
      let tok := s.takeWhile (· ≠ delim)
      tok :: splitByAux delim fuel (s.drop (tok.length + 1))

/-- `std::getline` splitting of a whole buffer. -/
def splitBy (delim : Char) (s : Str) : List Str := splitByAux delim s.length s

/-- The list of lines of a subprocess output buffer. -/
def splitLines (s : Str) : List Str := splitBy '\n' s

/-! ## `human_size` (utils translation unit, lines 74–92)

The C++ routine divides a `double` by 1024 until it is below 1024 (at most
five times) and prints it with `snprintf("%.1f")`.  After `k` divisions
the value is exactly the rational `size / 1024^k` (for sizes below `2^53`
the `double` computation is exact, each quotient being dyadic), so the
loop is embedded as the exact rational `size / 1024^k` represented by the
pair `(size, k)`, and `"%.1f"` as correct rounding to one decimal digit
with ties to even (the round-to-nearest-even printing `snprintf` performs
on these exact values). -/

/-- Decimal digits of a natural number, via `Nat.repr`. -/
def natStr (n : Nat) : Str := (Nat.repr n).toList

/-- `snprintf(buffer, …, "%.1f", v)` for the exact non-negative value
`num / den` (`den > 0`): round `10 * num / den` to the nearest integer
(ties to even), then print integer part, `'.'`, one fractional digit. -/
def fmt1 (num den : Nat) : Str :=
  let tenth := 10 * num / den
  let rem := 10 * num % den
  let n := if 2 * rem < den then tenth
    else if den < 2 * rem then tenth + 1
    else if tenth % 2 = 0 then tenth else tenth + 1
  natStr (n / 10) ++ '.' :: natStr (n % 10)

/-- The unit-selection loop of `human_size`: starting at index 0, divide
by 1024 while the current value `size / 1024^i` is at least 1024 (i.e.
`1024^(i+1) ≤ size`) and the unit index is below `max_units - 1 = 5`;
return the final index.  The body runs at most five times, so fuel 5 is
exact. -/
def hsLoop : Nat → Nat → Nat → Nat
  | 0, _, i => i
  | fuel + 1, size, i =>
    if 1024 ^ (i + 1) ≤ size ∧ i < 5 then hsLoop fuel size (i + 1) else i

/-- The unit suffixes `{"B", "K", "M", "G", "T", "P"}`. -/
def units : List Str :=
  (['B'] : Str) :: (['K'] : Str) :: (['M'] : Str) :: (['G'] : Str) ::
    (['T'] : Str) :: (['P'] : Str) :: []

/-- `human_size` from the utils translation unit: `0` maps to `"0B"`;
otherwise the value is scaled into `[0, 1024)` by the loop (stopping at
unit index 5 at the latest) and printed with one decimal digit followed by
the unit letter. -/
def human_size (size : Nat) : Str :=
  if size = 0 then '0' :: 'B' :: []
  else
    let i := hsLoop 5 size 0
    fmt1 size (1024 ^ i) ++ (units.getD i [])

/-! ## Options and argument parsing (include/xtree/options.h, main.cpp) -/

/-- `Options` from include/xtree/options.h, with its member
initializers. -/
structure Options where
  maxDepth : Int := -1
  showHidden : Bool := false
  showSize : Bool := false
  showStats : Bool := false
  useColor : Bool := true
  followSymlinks : Bool := false
  ignorePatterns : List Str := []
  gitStatus : Bool := false
  diskUsage : Bool := false
deriving DecidableEq, Repr

/-- `parse_ignore_patterns` (utils translation unit, lines 189–205): clear
the pattern vector, split the input at commas with `std::getline`, trim
each token, keep the non-empty ones.  The `patterns` argument is the
vector passed by reference; `patterns.clear()` makes the result
independent of it. -/
def parse_ignore_patterns (input : Str) (patterns : List Str) : List Str :=
  let _ := patterns   -- cleared by `patterns.clear()`
  (splitBy ',' input).filterMap fun tok =>
    let t := trim tok
    if t = [] then none else some t

/-- `std::stoi`, for the `--depth` argument: optional sign followed by
leading decimal digits.  (Real `stoi` throws when no digit is present;
that aborts the program and is irrelevant to the claims proved here, so
the model returns 0 in that case.) -/
def stoiModel (s : Str) : Int :=
  let digits (l : Str) : Int :=
    (l.takeWhile (·.isDigit)).foldl (fun a c => a * 10 + (c.toNat - 48)) 0
  match s with
  | '-' :: rest => -(digits rest)
  | '+' :: rest => digits rest
  | _ => digits s

/-- The option-processing loop of main.cpp (lines 50–64, dispatching to
the `option_handlers` table of lines 31–48): `--ignore=…` is matched as a
prefix; `--depth` and `--ignore` consume the following argument when there
is one; an unrecognized argument becomes the target path.  Returns the
final `Options` and target. -/
def processArgs : List Str → Options → Str → Options × Str
  | [], o, t => (o, t)
  | arg :: rest, o, t =>
    if ("--ignore=".toList).isPrefixOf arg then
      processArgs rest { o with ignorePatterns := parse_ignore_patterns (arg.drop 9) o.ignorePatterns } t
    else if arg = "--all".toList then processArgs rest { o with showHidden := true } t
    else if arg = "--size".toList then processArgs rest { o with showSize := true } t
    else if arg = "--no-color".toList then processArgs rest { o with useColor := false } t
    else if arg = "--follow-links".toList then processArgs rest { o with followSymlinks := true } t
    else if arg = "--git".toList then processArgs rest { o with gitStatus := true } t
    else if arg = "--stats".toList then processArgs rest { o with showStats := true } t
    else if arg = "--du".toList then processArgs rest { o with diskUsage := true } t
    else if arg = "--depth".toList then
      match rest with
      | v :: rest' => processArgs rest' { o with maxDepth := stoiModel v } t
      | [] => processArgs [] o t
    else if arg = "--ignore".toList then
      match rest with
      | v :: rest' => processArgs rest' { o with ignorePatterns := parse_ignore_patterns v o.ignorePatterns } t
      | [] => processArgs [] o t
    else processArgs rest o arg

/-! ## Repository-root discovery (git.cpp lines 16–29)

An absolute filesystem path is embedded as its list of components with
the *deepest component first* (so `parent_path` is `List.tail` and the
filesystem root is `[]`).  Which directories contain a `.git` directory
is an oracle predicate `hasGitDir`. -/

/-- `findRepoRoot`: walk upward from `cur`, returning the first directory
that contains a `.git` directory; at the filesystem root
(`cur == cur.root_path()`, i.e. `[]` here, where `parent_path` is the root
itself) give up after testing it. -/
def findRepoRoot (hasGitDir : List Str → Bool) : List Str → Option (List Str)
  | [] => if hasGitDir [] then some [] else none
  | c :: rest =>
    if hasGitDir (c :: rest) then some (c :: rest)
    else findRepoRoot hasGitDir rest

/-- The directories `findRepoRoot` examines: the start and all its
ancestors up to and including the filesystem root. -/
def upChain : List Str → List (List Str)
  | [] => [[]]
  | c :: rest => (c :: rest) :: upChain rest

/-- The front of `get_git_status` (git.cpp lines 54–60): when
`findRepoRoot` fails the function returns `false` immediately, leaving
`repo_root`, `fileStatus`, `dirStatus` and `branches` untouched; the
resolver's results are embedded as an `Option` that is `none` exactly in
that case.  On success the tables are built from the oracle query
outputs. -/
def getGitStatusResult (hasGitDir : List Str → Bool)
    (statusOut ignoredOut : List Str → Str)
    (target : List Str) : Option (List Str × FMap) :=
  match findRepoRoot hasGitDir target with
  | none => none
  | some root =>
    let m := applyStatusLines mapEmpty (splitLines (statusOut root))
    let m := applyIgnoredLines m (splitLines (ignoredOut root))
    some (root, m)

/-- The warning main.cpp prints to `std::cerr` when `get_git_status`
fails (main.cpp line 74). -/
def notRepoWarning : Str :=
  "Not a git repository (or any parent). Ignoring --git.".toList

/-- The `--git` phase of `main` (main.cpp lines 70–84): when the flag is
off nothing happens; when it is on and the resolver fails, exactly the
one warning line is emitted and the annotation tables passed on to
`print_tree` are null (`gitOk ? &fileStatus : nullptr`).  Returns the
stderr lines of this phase and the optional tables. -/
def mainGitPhase (opts : Options) (hasGitDir : List Str → Bool)
    (statusOut ignoredOut : List Str → Str) (target : List Str) :
    List Str × Option (List Str × FMap) :=
  if opts.gitStatus then
    match getGitStatusResult hasGitDir statusOut ignoredOut target with
    | none => ([notRepoWarning], none)
    | some r => ([], some r)
  else ([], none)

/-! ## Filesystem model, walker and renderer

A directory tree is embedded as a node carrying the data the walker
reads from a `directory_entry`: filename, directory/symlink flags, the
regular-file byte size (for a symlink, of its target), and the child
entries. -/

/-- A filesystem entry. -/
inductive FsEntry where
  | mk (name : Str) (isDir : Bool) (isSym : Bool) (size : Nat)
       (children : List FsEntry)

/-- Filename of an entry. -/
def FsEntry.name : FsEntry → Str
  | .mk n _ _ _ _ => n

/-- `entry.is_directory()`. -/
def FsEntry.isDir : FsEntry → Bool
  | .mk _ d _ _ _ => d

/-- `entry.is_symlink()` / `fs::is_symlink(entry.path())`. -/
def FsEntry.isSym : FsEntry → Bool
  | .mk _ _ s _ _ => s

/-- `entry.file_size()`. -/
def FsEntry.size : FsEntry → Nat
  | .mk _ _ _ sz _ => sz

/-- The entries a `directory_iterator` over this directory yields. -/
def FsEntry.children : FsEntry → List FsEntry
  | .mk _ _ _ _ cs => cs

/-- Index of the last occurrence of a character
(`find_last_of`). -/
def findLastIdx (ch : Char) : Str → Option Nat
  | [] => none
  | c :: rest =>
    match findLastIdx ch rest with
    | some k => some (k + 1)
    | none => if c = ch then some 0 else none

/-- `fs::path::extension()` of a filename: the substring from the last
period, except that for `"."`, `".."` and filenames whose only period is
the leading character (dot-files) it is empty. -/
def pathExtension (name : Str) : Str :=
  if name = ('.' :: []) ∨ name = ('.' :: '.' :: []) then []
  else
    match findLastIdx '.' name with
    | none => []
    | some 0 => []
    | some k => name.drop k

/-- `should_ignore` (utils translation unit, lines 104–123): with a
non-empty pattern list, match the extension without its leading dot, or
the exact filename, against every pattern. -/
def should_ignore (name : Str) (opts : Options) : Bool :=
  if opts.ignorePatterns = [] then false
  else
    let ext0 := pathExtension name
    (ext0 ≠ [] &&
      (let e := if ext0.headD ' ' = '.' then ext0.drop 1 else ext0
       opts.ignorePatterns.any (· = e))) ||
    opts.ignorePatterns.any (· = name)

/-- The `std::sort` comparator of `get_filtered_entries` (utils lines
150–159): directories strictly before files, otherwise lexicographic by
filename. -/
def entBefore (a b : FsEntry) : Bool :=
  if a.isDir ≠ b.isDir then a.isDir else decide (a.name < b.name)

/-- Insertion step of the sort. -/
def insertSorted (e : FsEntry) : List FsEntry → List FsEntry
  | [] => [e]
  | x :: xs => if entBefore e x then e :: x :: xs else x :: insertSorted e xs

/-- A sort satisfying the `std::sort` comparator (the source's sort is
unstable, so any order among comparator-equal entries is a faithful
refinement). -/
def sortEntries (l : List FsEntry) : List FsEntry := l.foldr insertSorted []

/-- The filter of `get_filtered_entries` (utils lines 130–145): keep an
entry unless it is a dotfile while hidden files are off, matches an
ignore pattern, or is a symlink while symlink following is off. -/
def keepEntry (opts : Options) (e : FsEntry) : Bool :=
  !(!opts.showHidden && e.name ≠ [] && e.name.headD ' ' = '.') &&
  !(should_ignore e.name opts) &&
  !(!opts.followSymlinks && e.isSym)

/-- `get_filtered_entries`: filter then sort the children of a
directory. -/
def get_filtered_entries (children : List FsEntry) (opts : Options) :
    List FsEntry :=
  sortEntries (children.filter (keepEntry opts))

/-! ### ANSI colors (utils lines 18–72) -/

/-- `ANSI_RESET`. -/
def ansiReset : Str := '\x1b' :: '[' :: '0' :: 'm' :: []

/-- Wrap in an ANSI sequence when color is on. -/
def colorWrap (code : Str) (s : Str) (color : Bool) : Str :=
  if color then code ++ s ++ ansiReset else s

/-- `color_blue`. -/
def color_blue (s : Str) (color : Bool) : Str :=
  colorWrap ('\x1b' :: '[' :: '1' :: ';' :: '3' :: '4' :: 'm' :: []) s color

/-- `color_green`. -/
def color_green (s : Str) (color : Bool) : Str :=
  colorWrap ('\x1b' :: '[' :: '1' :: ';' :: '3' :: '2' :: 'm' :: []) s color

/-- `color_gray`. -/
def color_gray (s : Str) (color : Bool) : Str :=
  colorWrap ('\x1b' :: '[' :: '0' :: ';' :: '3' :: '7' :: 'm' :: []) s color

/-- `color_red`. -/
def color_red (s : Str) (color : Bool) : Str :=
  colorWrap ('\x1b' :: '[' :: '1' :: ';' :: '3' :: '1' :: 'm' :: []) s color

/-- `color_yellow`. -/
def color_yellow (s : Str) (color : Bool) : Str :=
  colorWrap ('\x1b' :: '[' :: '1' :: ';' :: '3' :: '3' :: 'm' :: []) s color

/-- `normalize_path`: strip trailing `'/'` characters (`_WIN32` branch
omitted). -/
def normalize_path (p : Str) : Str := (p.reverse.dropWhile (· = '/')).reverse

/-- `fs::relative(entryPath, repo_root)` for the case the program
exercises (the entry lies at or under the repository root): `"."` for the
root itself, otherwise the path with the root prefix removed. -/
def relModel (path root : Str) : Str :=
  if path = root then '.' :: []
  else if (root ++ ('/' :: [])).isPrefixOf path then path.drop (root.length + 1)
  else path

/-- The annotation key the printer computes for an entry (printer.cpp
lines 51–53): relative path, normalized, with `"."` replaced by the empty
string. -/
def gitKey (entryPath repoRoot : Str) : Str :=
  let key := normalize_path (relModel entryPath repoRoot)
  if key = ('.' :: []) then [] else key

/-! ### `print_tree` (printer.cpp) -/

/-- The depth guard of `print_tree` (printer.cpp line 21):
`opts.maxDepth != -1 && depth > opts.maxDepth`. -/
def depthStop (opts : Options) (depth : Int) : Bool :=
  opts.maxDepth ≠ -1 && opts.maxDepth < depth

/-- Pair each element with its `isLast` flag (`i == entries.size() - 1`). -/
def withLast {α : Type} : List α → List (α × Bool)
  | [] => []
  | a :: [] => [(a, true)]
  | a :: b :: rest => (a, false) :: withLast (b :: rest)

/-- The size annotation printed after a directory name when `--du` is on
(printer.cpp lines 42–47). -/
def duAnnotation (opts : Options) (dirSizes : Str → Option Nat)
    (entryPath : Str) : Str :=
  if opts.diskUsage then
    match dirSizes entryPath with
    | some sz =>
      ' ' :: color_gray ('(' :: human_size sz ++ (')' :: [])) opts.useColor
    | none => []
  else []

/-- The status annotation printed after a directory name (printer.cpp
lines 49–57). -/
def dirStatusAnnotation (opts : Options) (hasGitInfo : Bool)
    (dirStatus : Option DMap) (entryPath repoRoot : Str) : Str :=
  if hasGitInfo then
    match dirStatus.bind (fun ds => ds (gitKey entryPath repoRoot)) with
    | some c => ' ' :: color_gray ('(' :: c :: ')' :: []) opts.useColor
    | none => []
  else []

/-- The colored filename of a non-directory entry (printer.cpp lines
65–90): when a status record is found the color follows
ignored/index/worktree, otherwise green. -/
def fileColoredName (opts : Options) (hasGitInfo : Bool)
    (fileStatus : Option FMap) (e : FsEntry) (entryPath repoRoot : Str) :
    Str :=
  let key := if hasGitInfo then gitKey entryPath repoRoot else []
  if fileStatus.isSome ∧ key ≠ [] then
    match fileStatus.bind (fun fsm => fsm key) with
    | some fi =>
      if fi.ignored then color_gray e.name opts.useColor
      else if fi.x ≠ ' ' ∧ fi.x ≠ '?' then color_yellow e.name opts.useColor
      else if fi.y ≠ ' ' ∧ fi.y ≠ '?' then color_red e.name opts.useColor
      else color_green e.name opts.useColor
    | none => color_green e.name opts.useColor
  else color_green e.name opts.useColor

/-- The size annotation printed after a file name when `--size` is on
(printer.cpp lines 92–104; the `file_size` failure branch is not
modelled, entries always carry a size). -/
def sizeAnnotation (opts : Options) (e : FsEntry) : Str :=
  if opts.showSize then
    ' ' :: color_gray ('(' :: human_size e.size ++ (')' :: [])) opts.useColor
  else []

/-- The status and author/date annotations printed after a file name
(printer.cpp lines 106–136). -/
def fileStatusAnnotation (opts : Options) (hasGitInfo : Bool)
    (fileStatus : Option FMap) (entryPath repoRoot : Str) : Str :=
  if hasGitInfo then
    match fileStatus.bind (fun fsm => fsm (gitKey entryPath repoRoot)) with
    | some fi =>
      let statusStr : Str := fi.status :: []
      let colored :=
        if fi.ignored then
          color_gray ('(' :: statusStr ++ (')' :: [])) opts.useColor
        else if fi.x ≠ ' ' ∧ fi.x ≠ '?' then
          color_yellow ('(' :: statusStr ++ (')' :: [])) opts.useColor
        else if fi.y ≠ ' ' ∧ fi.y ≠ '?' then
          color_red ('(' :: statusStr ++ (')' :: [])) opts.useColor
        else color_gray ('(' :: statusStr ++ (')' :: [])) opts.useColor
      let meta : Str :=
        if fi.author ≠ [] ∨ fi.date ≠ [] then
          if fi.author ≠ [] then
            fi.author ++ (if fi.date ≠ [] then (',' :: ' ' :: []) ++ fi.date else [])
          else fi.date
        else []
      (' ' :: colored) ++
        (if meta ≠ [] then ' ' :: color_gray ('(' :: meta ++ (')' :: [])) opts.useColor
         else [])
    | none => []
  else []

/-- The one stdout line printed for a directory entry (printer.cpp lines
33–58): connector, blue name, optional `--du` size, optional status. -/
def dirLine (opts : Options) (dirSizes : Str → Option Nat)
    (hasGitInfo : Bool) (dirStatus : Option DMap) (e : FsEntry)
    (entryPath repoRoot connector : Str) : Str :=
  connector ++ color_blue e.name opts.useColor ++
    duAnnotation opts dirSizes entryPath ++
    dirStatusAnnotation opts hasGitInfo dirStatus entryPath repoRoot

/-- The one stdout line printed for a non-directory entry (printer.cpp
lines 63–137). -/
def fileLine (opts : Options) (hasGitInfo : Bool)
    (fileStatus : Option FMap) (e : FsEntry)
    (entryPath repoRoot connector : Str) : Str :=
  connector ++ fileColoredName opts hasGitInfo fileStatus e entryPath repoRoot ++
    sizeAnnotation opts e ++
    fileStatusAnnotation opts hasGitInfo fileStatus entryPath repoRoot

/-- `print_tree` (printer.cpp lines 14–140), producing the list of stdout
lines.  `fuel` only bounds the recursion depth (the C++ recursion is
bounded by the actual tree depth); any fuel at least the tree height
yields the source behavior.  `nodePath` is `path`, the directory whose
children are being listed. -/
def print_tree (fuel : Nat) (node : FsEntry) (nodePath : Str)
    (opts : Options) (dirSizes : Str → Option Nat) (repoRoot : Str)
    (fileStatus : Option FMap) (dirStatus : Option DMap)
    (depth : Int) (pre : Str) : List Str :=
  match fuel with
  | 0 => []
  | fuel + 1 =>
    if depthStop opts depth then []
    else
      let entries := get_filtered_entries node.children opts
      let hasGitInfo := fileStatus.isSome && dirStatus.isSome && repoRoot ≠ []
      ((withLast entries).map fun el =>
        let e := el.1
        let connector :=
          pre ++ (if el.2 then "└── ".toList else "├── ".toList)
        let entryPath := nodePath ++ '/' :: e.name
        if e.isDir then
          dirLine opts dirSizes hasGitInfo dirStatus e entryPath repoRoot
              connector ::
          print_tree fuel e entryPath opts dirSizes repoRoot fileStatus
            dirStatus (depth + 1)
            (pre ++ (if el.2 then "    ".toList else "│   ".toList))
        else
          [fileLine opts hasGitInfo fileStatus e entryPath repoRoot connector]
      ).flatten

/-- Modelled from the spec: "renders normally with no status
annotations" — the renderer with every Git-derived decoration removed
(names colored by type only, sizes kept).  Used to compare with
`print_tree` when `main` passes null annotation tables. -/
def print_tree_plain (fuel : Nat) (node : FsEntry) (nodePath : Str)
    (opts : Options) (dirSizes : Str → Option Nat)
    (depth : Int) (pre : Str) : List Str :=
  match fuel with
  | 0 => []
  | fuel + 1 =>
    if depthStop opts depth then []
    else
      let entries := get_filtered_entries node.children opts
      ((withLast entries).map fun el =>
        let e := el.1
        let connector :=
          pre ++ (if el.2 then "└── ".toList else "├── ".toList)
        let entryPath := nodePath ++ '/' :: e.name
        if e.isDir then
          (connector ++ color_blue e.name opts.useColor ++
            duAnnotation opts dirSizes entryPath) ::
          print_tree_plain fuel e entryPath opts dirSizes (depth + 1)
            (pre ++ (if el.2 then "    ".toList else "│   ".toList))
        else
          [connector ++ color_green e.name opts.useColor ++
            sizeAnnotation opts e]
      ).flatten

/-! ### `compute_dir_size` (utils translation unit, lines 164–187) -/

/-- The sum over a `recursive_directory_iterator` rooted at `node` of the
byte sizes of the regular files it visits.  The iterator applies no
hidden/ignore filtering; it descends into subdirectories, following
directory symlinks only under `fs::directory_options::follow_directory_symlink`
(i.e. when `opts.followSymlinks`); `is_regular_file()` follows file
symlinks, so symlinked files contribute the target's size.  Fueled on
tree depth. -/
def subtreeFileSum (fuel : Nat) (opts : Options) (node : FsEntry) : Nat :=
  match fuel with
  | 0 => 0
  | fuel + 1 =>
    (node.children.map fun e =>
      if e.isDir then
        if e.isSym && !opts.followSymlinks then 0
        else subtreeFileSum fuel opts e
      else e.size).sum

/-- The directory paths the recursive traversal under `node` visits
(excluding `node` itself, as with the iterator's entries). -/
def subtreeDirs (fuel : Nat) (opts : Options) (node : FsEntry)
    (nodePath : Str) : List Str :=
  match fuel with
  | 0 => []
  | fuel + 1 =>
    node.children.flatMap fun e =>
      if e.isDir && !(e.isSym && !opts.followSymlinks) then
        (nodePath ++ '/' :: e.name) ::
          subtreeDirs fuel opts e (nodePath ++ '/' :: e.name)
      else []

/-- `compute_dir_size`: total the regular-file sizes under `root`, then
record `dirSizes[root.string()] = total` — the root key only. -/
def compute_dir_size (fuel : Nat) (opts : Options) (root : FsEntry)
    (rootPath : Str) (dirSizes : Str → Option Nat) :
    Nat × (Str → Option Nat) :=
  let total := subtreeFileSum fuel opts root
  (total, mapInsert dirSizes rootPath total)

/-! ## Claim C9: `human_size` -/

/-- Adequately fueled, the unit-selection loop started at index `i ≤ 5`
ends at an index `r` with `i ≤ r ≤ 5` such that every index passed
satisfied the `≥ 1024` test and the loop stopped either at the last unit
or because the value dropped below 1024. -/
theorem hsLoop_spec (fuel : Nat) :
    ∀ (i size : Nat), 5 ≤ fuel + i → i ≤ 5 →
      i ≤ hsLoop fuel size i ∧ hsLoop fuel size i ≤ 5 ∧
      (∀ j, i ≤ j → j < hsLoop fuel size i → 1024 ^ (j + 1) ≤ size) ∧
      (hsLoop fuel size i = 5 ∨ size < 1024 ^ (hsLoop fuel size i + 1)) := by
  induction fuel with
  | zero =>
    intro i size h hi
    have hi5 : i = 5 := by omega
    subst hi5
    refine ⟨le_refl _, le_refl _, ?_, Or.inl rfl⟩
    intro j hj hj'
    simp [hsLoop] at hj'
    omega
  | succ fuel ih =>
    intro i size h hi
    by_cases hc : 1024 ^ (i + 1) ≤ size ∧ i < 5
    · have hrec := ih (i + 1) size (by omega) (by omega)
      have hstep : hsLoop (fuel + 1) size i = hsLoop fuel size (i + 1) := by
        simp [hsLoop, hc]
      rw [hstep]
      refine ⟨by omega, hrec.2.1, ?_, hrec.2.2.2⟩
      intro j hj hj'
      rcases Nat.eq_or_lt_of_le hj with hji | hji
      · simpa [← hji] using hc.1
      · exact hrec.2.2.1 j (by omega) hj'
    · have hstep : hsLoop (fuel + 1) size i = i := by
        simp only [hsLoop, if_neg hc]
      rw [hstep]
      refine ⟨le_refl _, hi, ?_, ?_⟩
      · intro j hj hj'; omega
      · rcases Nat.lt_or_ge i 5 with h5 | h5
        · right
          rcases not_and_or.mp hc with hsz | hlt
          · omega
          · omega
        · left; omega

/-- C9.  The human-readable size formatter divides by 1024 through the
unit indices `B, K, M, G, T, P` (index at most 5; every step taken had a
value of at least 1024, and it stops below 1024 unless the last unit is
reached) and prints one decimal digit; in particular `0 ↦ "0B"`,
`1536 ↦ "1.5K"` and `1048576 ↦ "1.0M"`. -/
theorem human_size_spec :
    (∀ size : Nat,
      hsLoop 5 size 0 ≤ 5 ∧
      (∀ j, j < hsLoop 5 size 0 → 1024 ^ (j + 1) ≤ size) ∧
      (hsLoop 5 size 0 = 5 ∨ size < 1024 ^ (hsLoop 5 size 0 + 1))) ∧
    human_size 0 = "0B".toList ∧
    human_size 1536 = "1.5K".toList ∧
    human_size 1048576 = "1.0M".toList := by
  refine ⟨?_, by decide, by decide, by decide⟩
  intro size
  have h := hsLoop_spec 5 0 size (by omega) (by omega)
  exact ⟨h.2.1, fun j hj => h.2.2.1 j (Nat.zero_le j) hj, h.2.2.2⟩

/-- Witness for C9 at `size = 1536`. -/
theorem human_size_spec_witness :
    hsLoop 5 1536 0 ≤ 5 ∧ human_size 1536 = "1.5K".toList :=
  ⟨(human_size_spec.1 1536).1, human_size_spec.2.2.1⟩

/-! ## Claim C6: non-`??` porcelain lines -/

/-- C6.  Every porcelain line that does not start with `??` and has at
least 3 characters yields a record whose index field `x` is the first
character, whose worktree field `y` is the second, and whose display
status is `y` when `y` is non-blank and `x` otherwise; the path is the
remainder after the rename arrow is resolved.  In particular index `M`
with blank worktree and blank index with worktree `M` both display
`M`. -/
theorem parseStatusLine_nonUntracked :
    (∀ line : Str, line.take 2 ≠ ('?' :: '?' :: []) → 3 ≤ line.length →
      parseStatusLine line =
        some ({ x := line.getD 0 ' ', y := line.getD 1 ' ',
                status := if line.getD 1 ' ' ≠ ' ' then line.getD 1 ' '
                          else line.getD 0 ' ' },
              stripArrow (line.drop 3))) ∧
    (parseStatusLine ("M  a.txt".toList)).map (fun r => r.1.status) = some 'M' ∧
    (parseStatusLine (" M a.txt".toList)).map (fun r => r.1.status) = some 'M' := by
  refine ⟨?_, by decide, by decide⟩
  intro line h2 h3
  have hne : line ≠ [] := by
    intro h; subst h; simp at h3
  rw [parseStatusLine, if_neg hne, if_neg h2, if_pos h3]

/-- Witness for C6 at the line `"M  a.txt"`. -/
theorem parseStatusLine_nonUntracked_witness :
    parseStatusLine ("M  a.txt".toList) =
      some ({ x := 'M', y := ' ', status := 'M' }, "a.txt".toList) := by
  have h := parseStatusLine_nonUntracked.1 ("M  a.txt".toList)
    (by decide) (by decide)
  simpa using h

/-! ## Claim C3: `??` porcelain lines -/

/-- The behavior claim C3 asserts for a porcelain line, stated over the
source's record fields: display status `U`, worktree/unstaged column `y`
blank, index/staged column `x` equal to `?`, path everything after the
3rd character. -/
def claimC3Holds (line : Str) : Bool :=
  match parseStatusLine line with
  | some (info, p) =>
    info.status = 'U' && info.x = '?' && info.y = ' ' && p = line.drop 3
  | none => false

/-- Counterexample to C3: on the untracked line `"?? scratch.txt"` the
code records the *index/staged* column as blank and the
*worktree/unstaged* column as `?`, the opposite of the claim. -/
theorem claimC3_counterexample :
    ("?? scratch.txt".toList).take 2 = ('?' :: '?' :: []) ∧
    claimC3Holds ("?? scratch.txt".toList) = false := by
  decide

/-- C3 (amended).  A porcelain line starting with `??` yields a record
with display status `U`, index/staged column `x` blank, worktree/unstaged
column `y` equal to `?`, and path everything after the 3rd character. -/
theorem parseStatusLine_untracked :
    ∀ line : Str, line.take 2 = ('?' :: '?' :: []) →
      parseStatusLine line =
        some ({ x := ' ', y := '?', status := 'U' }, line.drop 3) := by
  intro line h
  have hne : line ≠ [] := by
    intro hnil; subst hnil; simp at h
  rw [parseStatusLine, if_neg hne, if_pos h]

/-- Witness for the amended C3 at the line `"?? scratch.txt"`. -/
theorem parseStatusLine_untracked_witness :
    parseStatusLine ("?? scratch.txt".toList) =
      some ({ x := ' ', y := '?', status := 'U' }, "scratch.txt".toList) := by
  have h := parseStatusLine_untracked ("?? scratch.txt".toList) (by decide)
  simpa using h

/-! ## Claim C1: directory-size aggregation records the root only -/

/-- A 10-byte regular file `f.txt`. -/
def c1File : FsEntry := FsEntry.mk ("f.txt".toList) false false 10 []

/-- A subdirectory `sub` containing `c1File`. -/
def c1Sub : FsEntry := FsEntry.mk ("sub".toList) true false 0 [c1File]

/-- The target directory `r` containing `c1Sub`. -/
def c1Root : FsEntry := FsEntry.mk ("r".toList) true false 0 [c1Sub]

/-- C1 fails on the code: `compute_dir_size` sums the whole subtree but
records a total only under the root key, so the visited directory
`r/sub` has no entry, and the rendered `--du` output shows no size after
`sub` (nor anywhere else).  Evaluation of the embedded code at the
failing input. -/
theorem compute_dir_size_records_root_only :
    (compute_dir_size 5 { diskUsage := true } c1Root ("r".toList)
        mapEmpty).2 ("r".toList) = some 10 ∧
    ("r/sub".toList) ∈
      subtreeDirs 5 { diskUsage := true } c1Root ("r".toList) ∧
    (compute_dir_size 5 { diskUsage := true } c1Root ("r".toList)
        mapEmpty).2 ("r/sub".toList) = none ∧
    print_tree 5 c1Root ("r".toList) { useColor := false, diskUsage := true }
        (compute_dir_size 5 { diskUsage := true } c1Root ("r".toList)
          mapEmpty).2 [] none none 0 [] =
      ("└── sub".toList) :: ("    └── f.txt".toList) :: [] := by
  decide

/-! ## Claim C8: the depth bound -/

/-- `withLast` preserves length. -/
theorem withLast_length {α : Type} : ∀ l : List α, (withLast l).length = l.length
  | [] => rfl
  | _ :: [] => rfl
  | _ :: b :: rest => by
    simp only [withLast, List.length_cons, withLast_length (b :: rest)]

/-- Flattening blocks that are all singletons is a map. -/
theorem flatten_of_singletons {α β : Type} (l : List α) (f : α → List β)
    (g : α → β) (h : ∀ a ∈ l, f a = [g a]) : (l.map f).flatten = l.map g := by
  induction l with
  | nil => rfl
  | cons a t ih =>
    simp only [List.map_cons, List.flatten_cons, h a (by simp),
      ih (fun a ha => h a (by simp [ha])), List.singleton_append]

/-- The single line `print_tree` emits for one filtered entry when the
recursion below it is cut off. -/
def entryOwnLine (opts : Options) (dirSizes : Str → Option Nat)
    (repoRoot nodePath : Str) (fs : Option FMap) (ds : Option DMap)
    (pre : Str) (el : FsEntry × Bool) : Str :=
  let connector := pre ++ (if el.2 then "└── ".toList else "├── ".toList)
  let entryPath := nodePath ++ '/' :: el.1.name
  let hasGitInfo := fs.isSome && ds.isSome && repoRoot ≠ []
  if el.1.isDir then
    dirLine opts dirSizes hasGitInfo ds el.1 entryPath repoRoot connector
  else fileLine opts hasGitInfo fs el.1 entryPath repoRoot connector

/-- C8.  Rendering stops as soon as the current depth exceeds a finite
configured max depth; with the unbounded setting `-1` the depth test
never stops recursion; and with max depth 0 the output is exactly one
line per immediate (filtered) child of the target — no deeper recursion
occurs. -/
theorem print_tree_depth_bound :
    (∀ (fuel : Nat) (node : FsEntry) (nodePath : Str) (opts : Options)
        (dirSizes : Str → Option Nat) (repoRoot : Str) (fs : Option FMap)
        (ds : Option DMap) (depth : Int) (pre : Str),
      opts.maxDepth ≠ -1 → opts.maxDepth < depth →
      print_tree fuel node nodePath opts dirSizes repoRoot fs ds depth pre
        = []) ∧
    (∀ opts : Options, opts.maxDepth = -1 →
      ∀ depth : Int, depthStop opts depth = false) ∧
    (∀ (fuel : Nat) (node : FsEntry) (nodePath : Str) (opts : Options)
        (dirSizes : Str → Option Nat) (repoRoot : Str) (fs : Option FMap)
        (ds : Option DMap) (pre : Str),
      opts.maxDepth = 0 →
      print_tree (fuel + 1) node nodePath opts dirSizes repoRoot fs ds 0 pre
        = (withLast (get_filtered_entries node.children opts)).map
            (entryOwnLine opts dirSizes repoRoot nodePath fs ds pre) ∧
      (print_tree (fuel + 1) node nodePath opts dirSizes repoRoot fs ds 0
          pre).length
        = (get_filtered_entries node.children opts).length) := by
  have hstop : ∀ (fuel : Nat) (node : FsEntry) (nodePath : Str)
      (opts : Options) (dirSizes : Str → Option Nat) (repoRoot : Str)
      (fs : Option FMap) (ds : Option DMap) (depth : Int) (pre : Str),
      opts.maxDepth ≠ -1 → opts.maxDepth < depth →
      print_tree fuel node nodePath opts dirSizes repoRoot fs ds depth pre
        = [] := by
    intro fuel node nodePath opts dirSizes repoRoot fs ds depth pre h1 h2
    cases fuel with
    | zero => rfl
    | succ fuel => simp [print_tree, depthStop, h1, h2]
  refine ⟨hstop, ?_, ?_⟩
  · intro opts h depth
    simp [depthStop, h]
  · intro fuel node nodePath opts dirSizes repoRoot fs ds pre h0
    have hmain :
        print_tree (fuel + 1) node nodePath opts dirSizes repoRoot fs ds 0 pre
          = (withLast (get_filtered_entries node.children opts)).map
              (entryOwnLine opts dirSizes repoRoot nodePath fs ds pre) := by
      have hns : depthStop opts 0 = false := by
        simp [depthStop, h0]
      rw [print_tree, hns]
      simp only [Bool.false_eq_true, if_false]
      refine flatten_of_singletons _ _ _ ?_
      intro el _
      by_cases hd : el.1.isDir
      · simp only [entryOwnLine, hd, if_pos, if_true]
        rw [hstop fuel el.1 _ opts dirSizes repoRoot fs ds (0 + 1) _
          (by simp [h0]) (by simp [h0])]
      · simp [entryOwnLine, hd]
    refine ⟨hmain, ?_⟩
    rw [hmain, List.length_map, withLast_length]

/-- Witness for C8: a tree with one directory and one file at the root,
max depth 0, renders exactly its two immediate children. -/
theorem print_tree_depth_bound_witness :
    ((0 : Int) ≠ -1 ∧ (0 : Int) < 1 ∧
      print_tree 9 c1Root ("r".toList)
        { useColor := false, maxDepth := 0 } mapEmpty [] none none 1 []
        = []) ∧
    (Options.maxDepth { maxDepth := 0, useColor := false } = 0 ∧
      print_tree 3 c1Root ("r".toList) { maxDepth := 0, useColor := false }
          mapEmpty [] none none 0 []
        = (withLast (get_filtered_entries c1Root.children
              { maxDepth := 0, useColor := false })).map
            (entryOwnLine { maxDepth := 0, useColor := false } mapEmpty []
              ("r".toList) none none [])) := by
  refine ⟨⟨by decide, by decide, ?_⟩, ⟨rfl, ?_⟩⟩
  · exact print_tree_depth_bound.1 9 c1Root _ _ mapEmpty [] none none 1 []
      (by decide) (by decide)
  · exact (print_tree_depth_bound.2.2 2 c1Root ("r".toList)
      { maxDepth := 0, useColor := false } mapEmpty [] none none [] rfl).1

/-! ## Claim C7: no repository found -/

/-- With `hasGitInfo = false` the directory status annotation is
empty. -/
theorem dirStatusAnnotation_off (opts : Options) (ds : Option DMap)
    (entryPath repoRoot : Str) :
    dirStatusAnnotation opts false ds entryPath repoRoot = [] := rfl

/-- With `hasGitInfo = false` the file status annotation is empty. -/
theorem fileStatusAnnotation_off (opts : Options) (fs : Option FMap)
    (entryPath repoRoot : Str) :
    fileStatusAnnotation opts false fs entryPath repoRoot = [] := rfl

/-- With a null `fileStatus` table every file name is colored green. -/
theorem fileColoredName_none (opts : Options) (hgi : Bool) (e : FsEntry)
    (entryPath repoRoot : Str) :
    fileColoredName opts hgi none e entryPath repoRoot
      = color_green e.name opts.useColor := by
  simp [fileColoredName]

/-- C7.  When no directory of the upward chain from the target contains
a `.git` directory, root discovery fails, the resolver returns no
partial results, a `--git` invocation emits exactly the one warning
line, and rendering with the null annotation tables `main` then passes
equals the annotation-free rendering. -/
theorem git_missing_repo :
    (∀ (hg : List Str → Bool) (target : List Str),
      (∀ d ∈ upChain target, hg d = false) →
      findRepoRoot hg target = none) ∧
    (∀ (opts : Options) (hg : List Str → Bool)
        (so io : List Str → Str) (target : List Str),
      opts.gitStatus = true →
      (∀ d ∈ upChain target, hg d = false) →
      mainGitPhase opts hg so io target = ([notRepoWarning], none)) ∧
    (∀ (fuel : Nat) (node : FsEntry) (nodePath : Str) (opts : Options)
        (dirSizes : Str → Option Nat) (depth : Int) (pre : Str),
      print_tree fuel node nodePath opts dirSizes [] none none depth pre
        = print_tree_plain fuel node nodePath opts dirSizes depth pre) := by
  have hfind : ∀ (hg : List Str → Bool) (target : List Str),
      (∀ d ∈ upChain target, hg d = false) →
      findRepoRoot hg target = none := by
    intro hg target h
    induction target with
    | nil =>
      have h0 : hg [] = false := h [] (by simp [upChain])
      simp [findRepoRoot, h0]
    | cons c rest ih =>
      have h0 : hg (c :: rest) = false := h (c :: rest) (by simp [upChain])
      have ht : ∀ d ∈ upChain rest, hg d = false := by
        intro d hd
        exact h d (by simp [upChain, hd])
      simp [findRepoRoot, h0, ih ht]
  refine ⟨hfind, ?_, ?_⟩
  · intro opts hg so io target hgit h
    simp [mainGitPhase, hgit, getGitStatusResult, hfind hg target h]
  · intro fuel
    induction fuel with
    | zero => intro node nodePath opts dirSizes depth pre; rfl
    | succ fuel ih =>
      intro node nodePath opts dirSizes depth pre
      rw [print_tree, print_tree_plain]
      by_cases hd : depthStop opts depth
      · simp [hd]
      · simp only [hd, Bool.false_eq_true, if_false]
        congr 1
        refine List.map_congr_left ?_
        intro el _
        by_cases hdir : el.1.isDir
        · simp only [hdir, if_true]
          rw [ih]
          congr 1
          simp [dirLine, dirStatusAnnotation_off]
        · simp only [hdir, Bool.false_eq_true, if_false]
          simp [fileLine, fileColoredName_none, fileStatusAnnotation_off]

/-- Processing a trailing option group `tail` that (from any option
state) leaves `ignorePatterns = parse_ignore_patterns v []` yields that
same pattern list after any earlier arguments, provided the earlier
arguments do not end in a bare `--ignore` or `--depth` (which would
consume the group's first token as their own value). -/
theorem processArgs_append_tail (v : Str) (tail : List Str)
    (htail : ∀ (o : Options) (t : Str),
      (processArgs tail o t).1.ignorePatterns = parse_ignore_patterns v []) :
    ∀ (n : Nat) (args : List Str), args.length ≤ n →
      args.getLast? ≠ some ("--ignore".toList) →
      args.getLast? ≠ some ("--depth".toList) →
      ∀ (o : Options) (t : Str),
        (processArgs (args ++ tail) o t).1.ignorePatterns
          = parse_ignore_patterns v [] := by
  intro n
  induction n with
  | zero =>
    intro args hlen _ _ o t
    have hargs : args = [] :=
      List.eq_nil_of_length_eq_zero (Nat.le_zero.mp hlen)
    subst hargs
    exact htail o t
  | succ n ih =>
    intro args hlen hA hB o t
    match args with
    | [] => exact htail o t
    | a :: rest =>
      have hrest : rest.length ≤ n := by
        simp only [List.length_cons] at hlen; omega
      have hlast' : rest.getLast? ≠ some ("--ignore".toList) ∧
          rest.getLast? ≠ some ("--depth".toList) := by
        match rest with
        | [] => simp
        | b :: r => rw [List.getLast?_cons_cons] at hA hB; exact ⟨hA, hB⟩
      simp only [List.cons_append]
      rw [processArgs.eq_def]
      dsimp only
      by_cases h1 : ("--ignore=".toList).isPrefixOf a = true
      · rw [if_pos h1]; exact ih rest hrest hlast'.1 hlast'.2 _ t
      · rw [if_neg h1]
        by_cases h2 : a = "--all".toList
        · rw [if_pos h2]; exact ih rest hrest hlast'.1 hlast'.2 _ t
        · rw [if_neg h2]
          by_cases h3 : a = "--size".toList
          · rw [if_pos h3]; exact ih rest hrest hlast'.1 hlast'.2 _ t
          · rw [if_neg h3]
            by_cases h4 : a = "--no-color".toList
            · rw [if_pos h4]; exact ih rest hrest hlast'.1 hlast'.2 _ t
            · rw [if_neg h4]
              by_cases h5 : a = "--follow-links".toList
              · rw [if_pos h5]; exact ih rest hrest hlast'.1 hlast'.2 _ t
              · rw [if_neg h5]
                by_cases h6 : a = "--git".toList
                · rw [if_pos h6]; exact ih rest hrest hlast'.1 hlast'.2 _ t
                · rw [if_neg h6]
                  by_cases h7 : a = "--stats".toList
                  · rw [if_pos h7]; exact ih rest hrest hlast'.1 hlast'.2 _ t
                  · rw [if_neg h7]
                    by_cases h8 : a = "--du".toList
                    · rw [if_pos h8]; exact ih rest hrest hlast'.1 hlast'.2 _ t
                    · rw [if_neg h8]
                      by_cases h9 : a = "--depth".toList
                      · rw [if_pos h9]
                        match rest with
                        | [] => exact absurd (by simp [List.getLast?, h9]) hB
                        | b :: r =>
                          have hr2 : r.getLast? ≠ some ("--ignore".toList) ∧
                              r.getLast? ≠ some ("--depth".toList) := by
                            match r with
                            | [] => simp
                            | c :: r' =>
                              rw [List.getLast?_cons_cons] at hlast'
                              exact hlast'
                          have hrlen : r.length ≤ n := by
                            simp only [List.length_cons] at hlen
                            omega
                          simp only [List.cons_append]
                          exact ih r hrlen hr2.1 hr2.2 _ t
                      · rw [if_neg h9]
                        by_cases h10 : a = "--ignore".toList
                        · rw [if_pos h10]
                          match rest with
                          | [] => exact absurd (by simp [List.getLast?, h10]) hA
                          | b :: r =>
                            have hr2 : r.getLast? ≠ some ("--ignore".toList) ∧
                                r.getLast? ≠ some ("--depth".toList) := by
                              match r with
                              | [] => simp
                              | c :: r' =>
                                rw [List.getLast?_cons_cons] at hlast'
                                exact hlast'
                            have hrlen : r.length ≤ n := by
                              simp only [List.length_cons] at hlen
                              omega
                            simp only [List.cons_append]
                            exact ih r hrlen hr2.1 hr2.2 _ t
                        · rw [if_neg h10]
                          exact ih rest hrest hlast'.1 hlast'.2 o a

/-- Witness for C7: a concrete two-level target with no `.git`
anywhere. -/
theorem git_missing_repo_witness :
    Options.gitStatus { gitStatus := true } = true ∧
    mainGitPhase { gitStatus := true } (fun _ => false) (fun _ => [])
        (fun _ => []) (("home".toList) :: ("user".toList) :: [])
      = ([notRepoWarning], none) := by
  refine ⟨rfl, ?_⟩
  exact git_missing_repo.2.1 { gitStatus := true } (fun _ => false)
    (fun _ => []) (fun _ => []) (("home".toList) :: ("user".toList) :: [])
    rfl (by intro d _; rfl)

/-! ## Claim C10: `--ignore` clears previously accumulated patterns -/

/-- C10.  `parse_ignore_patterns` clears the pattern vector before
parsing, so its result never depends on the previously accumulated
patterns; consequently, through the option loop, an invocation whose
last flag is `--ignore=csv` or `--ignore csv` ends with exactly that
flag's patterns in effect, whatever `--ignore` flags came before.  (The
earlier arguments must not end in a bare `--ignore` or `--depth`, which
would swallow the final flag as their own value.) -/
theorem ignore_last_wins :
    (∀ (input : Str) (old : List Str),
      parse_ignore_patterns input old = parse_ignore_patterns input []) ∧
    (∀ (args : List Str) (v : Str) (o : Options) (t : Str),
      args.getLast? ≠ some ("--ignore".toList) →
      args.getLast? ≠ some ("--depth".toList) →
      (processArgs (args ++ (("--ignore=".toList ++ v) :: [])) o t).1.ignorePatterns
        = parse_ignore_patterns v []) ∧
    (∀ (args : List Str) (v : Str) (o : Options) (t : Str),
      args.getLast? ≠ some ("--ignore".toList) →
      args.getLast? ≠ some ("--depth".toList) →
      (processArgs (args ++ ("--ignore".toList :: v :: [])) o t).1.ignorePatterns
        = parse_ignore_patterns v []) := by
  have hlen9 : ("--ignore=".toList).length = 9 := rfl
  have hdrop : ∀ v : Str, (("--ignore=".toList) ++ v).drop 9 = v := by
    intro v
    rw [← hlen9]
    exact List.drop_left _ _
  refine ⟨fun input old => rfl, ?_, ?_⟩
  · intro args v o t hA hB
    refine processArgs_append_tail v _ ?_ args.length args (le_refl _) hA hB o t
    intro o' t'
    rw [processArgs.eq_def]
    dsimp only
    rw [if_pos (List.isPrefixOf_iff_prefix.mpr (List.prefix_append _ _))]
    rw [processArgs.eq_def]
    dsimp only
    rw [hdrop v]
    rfl
  · intro args v o t hA hB
    refine processArgs_append_tail v _ ?_ args.length args (le_refl _) hA hB o t
    intro o' t'
    rw [processArgs.eq_def]
    dsimp only
    rw [if_neg (by decide), if_neg (by decide), if_neg (by decide),
      if_neg (by decide), if_neg (by decide), if_neg (by decide),
      if_neg (by decide), if_neg (by decide), if_neg (by decide),
      if_pos (by decide)]
    rw [processArgs.eq_def]
    dsimp only
    rfl

/-- Witness for C10: `--ignore=txt` followed by `--ignore=json,log`
leaves only `json` and `log` in effect. -/
theorem ignore_last_wins_witness :
    (processArgs ((("--ignore=txt".toList) :: []) ++
        (("--ignore=".toList ++ "json,log".toList) :: [])) { } (".".toList)
      ).1.ignorePatterns = parse_ignore_patterns ("json,log".toList) [] ∧
    parse_ignore_patterns ("json,log".toList) []
      = ("json".toList) :: ("log".toList) :: [] := by
  refine ⟨?_, by decide⟩
  exact ignore_last_wins.2.1 (("--ignore=txt".toList) :: [])
    ("json,log".toList) { } (".".toList) (by decide) (by decide)

/-! ## Claim C5: the ignored-file pass -/

/-- What one ignored-file iteration stores at its key: a fresh record
marked ignored with status `'I'` when none exists, otherwise the
existing record with `ignored` set and status overwritten to `'I'`. -/
def markIgnored : Option FileGitInfo → FileGitInfo
  | none => { ignored := true, status := 'I' }
  | some info => { info with ignored := true, status := 'I' }

/-- Marking twice is marking once. -/
theorem markIgnored_idem (o : Option FileGitInfo) :
    markIgnored (some (markIgnored o)) = markIgnored o := by
  cases o <;> rfl

/-- One ignored-file iteration, as a single guarded map update. -/
theorem applyIgnoredLine_closed (m : FMap) (line : Str) :
    applyIgnoredLine m line =
      if trim line = [] then m
      else mapInsert m (trim line) (markIgnored (m (trim line))) := by
  unfold applyIgnoredLine
  dsimp only
  cases hm : m (trim line) with
  | none => rfl
  | some info => rfl

/-- Pointwise effect of one ignored-file iteration. -/
theorem applyIgnoredLine_eval (m : FMap) (line : Str) (p : Str) :
    applyIgnoredLine m line p =
      if trim line = p ∧ p ≠ [] then some (markIgnored (m p)) else m p := by
  rw [applyIgnoredLine_closed]
  by_cases h0 : trim line = []
  · rw [if_pos h0]
    rw [if_neg (by intro hc; exact hc.2 (by rw [← hc.1, h0]))]
  · rw [if_neg h0]
    simp only [mapInsert]
    by_cases h1 : p = trim line
    · rw [if_pos h1, if_pos ⟨h1.symm, by rw [h1]; exact h0⟩, h1]
    · rw [if_neg h1, if_neg (fun hc => h1 hc.1.symm)]

/-- Pointwise effect of the whole ignored-file pass. -/
theorem applyIgnoredLines_eval :
    ∀ (lines : List Str) (m : FMap) (p : Str),
      applyIgnoredLines m lines p =
        if p ∈ lines.map trim ∧ p ≠ [] then some (markIgnored (m p))
        else m p := by
  intro lines
  induction lines with
  | nil =>
    intro m p
    simp [applyIgnoredLines]
  | cons l rest ih =>
    intro m p
    show applyIgnoredLines (applyIgnoredLine m l) rest p = _
    rw [ih, applyIgnoredLine_eval]
    have hmemC : p ∈ (l :: rest).map trim ↔ trim l = p ∨ p ∈ rest.map trim := by
      simp [eq_comm]
    by_cases hA : p ∈ List.map trim rest ∧ p ≠ []
    · rw [if_pos hA]
      by_cases hB : trim l = p ∧ p ≠ []
      · rw [if_pos hB, markIgnored_idem,
          if_pos ⟨hmemC.mpr (Or.inr hA.1), hA.2⟩]
      · rw [if_neg hB, if_pos ⟨hmemC.mpr (Or.inr hA.1), hA.2⟩]
    · rw [if_neg hA]
      by_cases hB : trim l = p ∧ p ≠ []
      · rw [if_pos hB, if_pos ⟨hmemC.mpr (Or.inl hB.1), hB.2⟩]
      · rw [if_neg hB, if_neg ?hC]
        case hC =>
          intro hc
          rcases hmemC.mp hc.1 with h | h
          · exact hB ⟨h, hc.2⟩
          · exact hA ⟨h, hc.2⟩

/-- C5.  Every path the ignored-file enumeration lists (trimmed,
non-empty) ends with `ignored` set and display status `'I'`: a path with
no prior record gets a fresh ignored record, and a path already present
(for example from porcelain parsing) keeps its other fields but has its
status overwritten to `'I'`. -/
theorem ignored_list_overrides (m : FMap) (lines : List Str) (p : Str)
    (hmem : p ∈ lines.map trim) (hne : p ≠ []) :
    applyIgnoredLines m lines p = some (markIgnored (m p)) ∧
    (markIgnored (m p)).ignored = true ∧
    (markIgnored (m p)).status = 'I' ∧
    (m p = none → markIgnored (m p) = { ignored := true, status := 'I' }) ∧
    (∀ old, m p = some old →
      markIgnored (m p) = { old with ignored := true, status := 'I' }) := by
  refine ⟨?_, ?_, ?_, ?_, ?_⟩
  · rw [applyIgnoredLines_eval, if_pos ⟨hmem, hne⟩]
  · cases hm : m p <;> simp [markIgnored]
  · cases hm : m p <;> simp [markIgnored]
  · intro hm; rw [hm]; rfl
  · intro old hm; rw [hm]; rfl

/-- Witness for C5: a path present both in the porcelain table (status
`M`) and in the ignored list ends with status `'I'`. -/
theorem ignored_list_overrides_witness :
    applyIgnoredLines
        (mapInsert mapEmpty ("gen.txt".toList)
          { x := 'M', y := ' ', status := 'M' })
        (("gen.txt".toList) :: (" build.log ".toList) :: [])
        ("gen.txt".toList)
      = some (markIgnored (mapInsert mapEmpty ("gen.txt".toList)
          { x := 'M', y := ' ', status := 'M' } ("gen.txt".toList))) ∧
    (markIgnored (mapInsert mapEmpty ("gen.txt".toList)
        { x := 'M', y := ' ', status := 'M' } ("gen.txt".toList))).status
      = 'I' := by
  refine ⟨?_, ?_⟩
  · exact (ignored_list_overrides
      (mapInsert mapEmpty ("gen.txt".toList)
        { x := 'M', y := ' ', status := 'M' })
      (("gen.txt".toList) :: (" build.log ".toList) :: [])
      ("gen.txt".toList) (by decide) (by decide)).1
  · exact (ignored_list_overrides
      (mapInsert mapEmpty ("gen.txt".toList)
        { x := 'M', y := ' ', status := 'M' })
      (("gen.txt".toList) :: (" build.log ".toList) :: [])
      ("gen.txt".toList) (by decide) (by decide)).2.2.1

/-! ## Claim C2: batched author/date enrichment -/

/-- Modelled from the spec's words for the claimed fallback trigger: the
number of lines of a buffer ("more than one line"), with `std::getline`
line semantics. -/
def countLines (out : Str) : Nat := (splitLines out).length

/-- Modelled from the spec's words: the batch body as claim C2 states it,
falling back to per-path queries exactly when the batched output is empty
or has more than one *line* (instead of the source's "contains a newline
character"). -/
def processBatchSpec (batchQ : List Str → Str) (singleQ : Str → Str)
    (m : FMap) (batch : List Str) : FMap :=
  let out := batchQ batch
  if out = [] ∨ 1 < countLines out then
    batch.foldl (singleStep singleQ) m
  else
    match parsePipe out with
    | none => m
    | some (a, d) => batch.foldl (fun m p => assignMeta m p a d) m

/-- Counterexample to C2: a batched query output consisting of one line
with a terminating newline — exactly what `git log` emits — makes the
code fall back (it contains `'\n'`) although the claim says a one-line
output must not fall back; with a single-path oracle that returns
nothing, the code leaves the author empty while the claimed behavior
assigns `"Alice"`. -/
theorem processBatch_counterexample :
    countLines ("Alice|2024-01-02\n".toList) = 1 ∧
    processBatch (fun _ => "Alice|2024-01-02\n".toList) (fun _ => [])
        (mapInsert mapEmpty ("f.txt".toList) { status := 'U' })
        (("f.txt".toList) :: []) ("f.txt".toList)
      ≠ processBatchSpec (fun _ => "Alice|2024-01-02\n".toList) (fun _ => [])
        (mapInsert mapEmpty ("f.txt".toList) { status := 'U' })
        (("f.txt".toList) :: []) ("f.txt".toList) := by
  decide

/-- Pointwise effect of the uniform batch assignment. -/
theorem foldl_assignMeta_eval (a d : Str) :
    ∀ (batch : List Str) (m : FMap) (p : Str),
      (batch.foldl (fun m p => assignMeta m p a d) m) p =
        if p ∈ batch then
          (match m p with
           | none => none
           | some info => some { info with author := a, date := d })
        else m p := by
  intro batch
  induction batch with
  | nil => intro m p; simp
  | cons b rest ih =>
    intro m p
    show (rest.foldl _ (assignMeta m b a d)) p = _
    rw [ih]
    have hassign : ∀ q, assignMeta m b a d q =
        if q = b then
          (match m q with
           | none => none
           | some info => some { info with author := a, date := d })
        else m q := by
      intro q
      by_cases hq : q = b
      · subst hq
        cases hm : m q with
        | none => simp [assignMeta, hm]
        | some info => simp [assignMeta, hm, mapInsert]
      · cases hm : m b with
        | none => simp [assignMeta, hm, hq]
        | some info => simp [assignMeta, hm, mapInsert, hq]
    by_cases hp : p ∈ rest
    · rw [if_pos hp, if_pos (by simp [hp]), hassign]
      by_cases hpb : p = b
      · subst hpb
        cases hm : m p with
        | none => rw [if_pos rfl]
        | some info => rw [if_pos rfl]
      · rw [if_neg hpb]
    · rw [if_neg hp, hassign]
      by_cases hpb : p = b
      · subst hpb
        rw [if_pos rfl, if_pos (by simp)]
      · rw [if_neg hpb, if_neg (by simp [hpb, hp])]

/-- C2 (amended).  Enrichment processes the status-table paths in
batches of 50 (the batches partition the path list); a batch falls back
to one query per path exactly when the batched output is empty or
contains a newline character (in particular any newline-terminated
output, which is what `git log` produces, falls back); otherwise the
single parsed author and date (author up to the `'|'`, date trimmed and
truncated to its first 10 characters) are assigned to every path of the
batch that is present in the table; a path whose single-path query
returns nothing is left unchanged, keeping its empty author and date. -/
theorem enrich_batching (batchQ : List Str → Str) (singleQ : Str → Str) :
    (∀ paths : List Str,
      enrich batchQ singleQ paths
        = (batchesOf50 paths).foldl (processBatch batchQ singleQ) ∧
      (batchesOf50 paths).flatten = paths ∧
      ∀ b ∈ batchesOf50 paths, b ≠ [] ∧ b.length ≤ 50) ∧
    (∀ (m : FMap) (batch : List Str),
      (batchQ batch = [] ∨ '\n' ∈ batchQ batch) →
      processBatch batchQ singleQ m batch
        = batch.foldl (singleStep singleQ) m) ∧
    (∀ (m : FMap) (batch : List Str) (a d : Str),
      ¬(batchQ batch = [] ∨ '\n' ∈ batchQ batch) →
      parsePipe (batchQ batch) = some (a, d) →
      ∀ p ∈ batch,
        processBatch batchQ singleQ m batch p
          = (match m p with
             | none => none
             | some info => some { info with author := a, date := d })) ∧
    (∀ (out : Str) (i : Nat), findSub ('|' :: []) out = some i →
      parsePipe out = some (out.take i, (trim (out.drop (i + 1))).take 10)) ∧
    (∀ (m : FMap) (p : Str), singleQ p = [] → singleStep singleQ m p = m) := by
  refine ⟨?_, ?_, ?_, ?_, ?_⟩
  · intro paths
    refine ⟨rfl, ?_, ?_⟩
    · suffices h : ∀ (n : Nat) (l : List Str), l.length ≤ n →
          (batchesAux n l).flatten = l by
        exact h paths.length paths (le_refl _)
      intro n
      induction n with
      | zero =>
        intro l hl
        have : l = [] := List.eq_nil_of_length_eq_zero (Nat.le_zero.mp hl)
        subst this
        rfl
      | succ n ih =>
        intro l hl
        by_cases hnil : l = []
        · subst hnil; rfl
        · show (batchesAux (n + 1) l).flatten = l
          rw [batchesAux, if_neg hnil]
          rw [List.flatten_cons]
          rw [ih (l.drop 50) (by
            have := List.length_drop 50 l
            omega)]
          exact List.take_append_drop 50 l
    · suffices h : ∀ (n : Nat) (l : List Str), l.length ≤ n →
          ∀ b ∈ batchesAux n l, b ≠ [] ∧ b.length ≤ 50 by
        exact h paths.length paths (le_refl _)
      intro n
      induction n with
      | zero =>
        intro l hl b hb
        have : l = [] := List.eq_nil_of_length_eq_zero (Nat.le_zero.mp hl)
        subst this
        simp [batchesAux] at hb
      | succ n ih =>
        intro l hl b hb
        by_cases hnil : l = []
        · subst hnil; simp [batchesAux] at hb
        · rw [batchesAux, if_neg hnil] at hb
          rcases List.mem_cons.mp hb with hb | hb
          · subst hb
            constructor
            · simp [hnil]
            · exact List.length_take_le 50 l
          · exact ih (l.drop 50) (by
              have := List.length_drop 50 l
              omega) b hb
  · intro m batch h
    unfold processBatch
    rw [if_pos h]
  · intro m batch a d h hpipe p hp
    unfold processBatch
    rw [if_neg h, hpipe]
    dsimp only
    rw [foldl_assignMeta_eval a d batch m p, if_pos hp]
  · intro out i h
    unfold parsePipe
    rw [h]
    dsimp only
    congr 1
    by_cases hlen : 10 ≤ (trim (out.drop (i + 1))).length
    · rw [if_pos hlen]
    · rw [if_neg hlen]
      have h10 : (trim (out.drop (i + 1))).length ≤ 10 := by omega
      rw [List.take_of_length_le h10]
  · intro m p h
    unfold singleStep
    rw [if_pos h]

/-- Witness for the amended C2: a batch of one path whose batched output
is newline-terminated falls back; the single-path query assigns the
parsed author and truncated date. -/
theorem enrich_batching_witness :
    processBatch (fun _ => "Alice|2024-01-02\n".toList)
        (fun _ => "Bob|2024-03-04 10:11:12\n".toList)
        (mapInsert mapEmpty ("f.txt".toList) { status := 'U' })
        (("f.txt".toList) :: [])
      = (("f.txt".toList) :: []).foldl
          (singleStep (fun _ => "Bob|2024-03-04 10:11:12\n".toList))
          (mapInsert mapEmpty ("f.txt".toList) { status := 'U' }) ∧
    ((("f.txt".toList) :: []).foldl
          (singleStep (fun _ => "Bob|2024-03-04 10:11:12\n".toList))
          (mapInsert mapEmpty ("f.txt".toList) { status := 'U' }))
        ("f.txt".toList)
      = some { status := 'U', author := "Bob".toList,
               date := "2024-03-04".toList } := by
  refine ⟨?_, by decide⟩
  exact (enrich_batching (fun _ => "Alice|2024-01-02\n".toList)
      (fun _ => "Bob|2024-03-04 10:11:12\n".toList)).2.1
    (mapInsert mapEmpty ("f.txt".toList) { status := 'U' })
    (("f.txt".toList) :: []) (by decide)

/-! ## Claim C4: the directory rollup -/

/-- The value one rollup update leaves at an already-looked-up key:
overwrite an absent or strictly lower-priority entry. -/
def combine (o : Option Char) (st : Char) : Char :=
  match o with
  | none => st
  | some c => if priority c < priority st then st else c

/-- Pointwise effect of one rollup update. -/
theorem updateOne_eval (st : Char) (m : DMap) (a key : Str) :
    updateOne st m a key =
      if key = a then some (combine (m a) st) else m key := by
  unfold updateOne
  cases hm : m a with
  | none =>
    simp only [combine]
    by_cases hk : key = a
    · subst hk; simp [mapInsert, hm]
    · simp [mapInsert, hk]
  | some c =>
    simp only [combine]
    by_cases hp : priority c < priority st
    · rw [if_pos hp, if_pos hp]
      by_cases hk : key = a
      · subst hk; simp [mapInsert]
      · simp [mapInsert, hk]
    · rw [if_neg hp, if_neg hp]
      by_cases hk : key = a
      · subst hk; simp [hm]
      · simp [hk]

/-- `combine` is idempotent in its update argument. -/
theorem combine_idem (o : Option Char) (st : Char) :
    combine (some (combine o st)) st = combine o st := by
  cases o with
  | none => simp [combine]
  | some c =>
    simp only [combine]
    by_cases hp : priority c < priority st
    · simp [hp]
    · rw [if_neg hp, if_neg hp]

/-- Pointwise effect of the inner ancestor loop over any directory
list. -/
theorem foldl_updateOne_eval (st : Char) :
    ∀ (L : List Str) (m : DMap) (key : Str),
      (L.foldl (updateOne st) m) key =
        if key ∈ L then some (combine (m key) st) else m key := by
  intro L
  induction L with
  | nil => intro m key; simp
  | cons a rest ih =>
    intro m key
    show (rest.foldl (updateOne st) (updateOne st m a)) key = _
    rw [ih]
    by_cases hk : key ∈ rest
    · rw [if_pos hk, if_pos (by simp [hk]), updateOne_eval]
      by_cases hka : key = a
      · subst hka
        rw [if_pos rfl, combine_idem]
      · rw [if_neg hka]
    · rw [if_neg hk, updateOne_eval]
      by_cases hka : key = a
      · subst hka
        rw [if_pos rfl, if_pos (by simp)]
      · rw [if_neg hka, if_neg (by simp [hka, hk])]

/-- Pointwise effect of the rollup for one file. -/
theorem processFile_eval (m : DMap) (pr : Str × Char) (d : Str) :
    processFile m pr d =
      if d ∈ ancestors pr.1 then some (combine (m d) pr.2) else m d := by
  unfold processFile
  exact foldl_updateOne_eval pr.2 (ancestors pr.1) m d

/-- Pointwise closed form of the whole rollup loop: the result at key
`d` folds the statuses of exactly those files that have `d` among their
ancestors. -/
theorem buildAux_eval :
    ∀ (files : List (Str × Char)) (m : DMap) (d : Str),
      (files.foldl processFile m) d =
        (files.filter (fun pr => d ∈ ancestors pr.1)).foldl
          (fun o pr => some (combine o pr.2)) (m d) := by
  intro files
  induction files with
  | nil => intro m d; rfl
  | cons pr rest ih =>
    intro m d
    show (rest.foldl processFile (processFile m pr)) d = _
    rw [ih]
    by_cases hd : d ∈ ancestors pr.1
    · rw [List.filter_cons_of_pos (by simpa using hd)]
      rw [processFile_eval, if_pos hd, List.foldl_cons]
    · rw [List.filter_cons_of_neg (by simpa using hd)]
      rw [processFile_eval, if_neg hd]

/-- The status fold always yields `some`, and its result is either one
of the folded statuses or the seed, bounds every folded status's
priority, and bounds the seed's priority. -/
theorem statusFold_spec :
    ∀ (sub : List (Str × Char)) (o : Option Char) (c : Char),
      sub.foldl (fun o pr => some (combine o pr.2)) o = some c →
      ((∃ pr ∈ sub, pr.2 = c) ∨ o = some c) ∧
      (∀ pr ∈ sub, priority pr.2 ≤ priority c) ∧
      (∀ c₀, o = some c₀ → priority c₀ ≤ priority c) := by
  intro sub
  induction sub with
  | nil =>
    intro o c h
    simp only [List.foldl_nil] at h
    subst h
    refine ⟨Or.inr rfl, by simp, ?_⟩
    intro c₀ h₀
    injection h₀ with h₀
    rw [h₀]
  | cons pr rest ih =>
    intro o c h
    rw [List.foldl_cons] at h
    have hrec := ih (some (combine o pr.2)) c h
    have hcomb_self : priority pr.2 ≤ priority (combine o pr.2) := by
      cases o with
      | none => simp [combine]
      | some c₀ =>
        simp only [combine]
        by_cases hp : priority c₀ < priority pr.2
        · rw [if_pos hp]
        · rw [if_neg hp]; omega
    have hcomb_old : ∀ c₀, o = some c₀ →
        priority c₀ ≤ priority (combine o pr.2) := by
      intro c₀ h₀
      subst h₀
      simp only [combine]
      by_cases hp : priority c₀ < priority pr.2
      · rw [if_pos hp]; omega
      · rw [if_neg hp]
    have hcomb_cases : combine o pr.2 = pr.2 ∨ ∃ c₀, o = some c₀ ∧
        combine o pr.2 = c₀ := by
      cases o with
      | none => exact Or.inl rfl
      | some c₀ =>
        simp only [combine]
        by_cases hp : priority c₀ < priority pr.2
        · rw [if_pos hp]; exact Or.inl rfl
        · rw [if_neg hp]; exact Or.inr ⟨c₀, rfl, rfl⟩
    have hle : priority (combine o pr.2) ≤ priority c :=
      hrec.2.2 (combine o pr.2) rfl
    refine ⟨?_, ?_, ?_⟩
    · rcases hrec.1 with h1 | h1
      · rcases h1 with ⟨q, hq, hqc⟩
        exact Or.inl ⟨q, by simp [hq], hqc⟩
      · injection h1 with h1
        rcases hcomb_cases with h2 | ⟨c₀, ho, h2⟩
        · exact Or.inl ⟨pr, by simp, by rw [← h2, h1]⟩
        · exact Or.inr (by rw [ho, ← h2, h1])
    · intro q hq
      rcases List.mem_cons.mp hq with hq | hq
      · subst hq; exact le_trans hcomb_self hle
      · exact hrec.2.1 q hq
    · intro c₀ h₀
      exact le_trans (hcomb_old c₀ h₀) hle

/-- A directory path `d` lies strictly above a file path `p` ("`p` lies
strictly below `d`") when `d` is the repository root (empty string) or
`d ++ "/"` is a prefix of `p`. -/
def isStrictAncestor (d p : Str) : Prop :=
  d = [] ∨ (d ++ ('/' :: [])) <+: p

/-- `findLastSlash` fails exactly on slash-free strings. -/
theorem findLastSlash_none : ∀ p : Str, findLastSlash p = none ↔ '/' ∉ p := by
  intro p
  induction p with
  | nil => simp [findLastSlash]
  | cons c rest ih =>
    cases hr : findLastSlash rest with
    | some k =>
      simp only [findLastSlash, hr]
      constructor
      · intro h; cases h
      · intro h
        exact absurd (ih.mpr (fun hm => h (by simp [hm]))) (by simp [hr])
    | none =>
      by_cases hc : c = '/'
      · simp [findLastSlash, hr, hc]
      · simp [findLastSlash, hr, hc, ih.mp hr, Ne.symm hc]

/-- A successful `findLastSlash` splits the string at its last slash. -/
theorem findLastSlash_decomp :
    ∀ (p : Str) (k : Nat), findLastSlash p = some k →
      ∃ q s, p = q ++ '/' :: s ∧ q.length = k ∧ '/' ∉ s := by
  intro p
  induction p with
  | nil => intro k h; cases h
  | cons c rest ih =>
    intro k h
    cases hr : findLastSlash rest with
    | some k' =>
      rw [findLastSlash, hr] at h
      injection h with h
      rcases ih k' hr with ⟨q, s, hq, hlen, hs⟩
      exact ⟨c :: q, s, by rw [hq]; rfl, by simp [hlen, ← h], hs⟩
    | none =>
      rw [findLastSlash, hr] at h
      by_cases hc : c = '/'
      · rw [if_pos hc] at h
        injection h with h
        exact ⟨[], rest, by rw [hc]; rfl, h ▸ rfl, (findLastSlash_none rest).mp hr⟩
      · rw [if_neg hc] at h
        cases h

/-- `parentDir` of a decomposed path is the part before the last
slash. -/
theorem parentDir_decomp (q s : Str)
    (hk : findLastSlash (q ++ '/' :: s) = some q.length) :
    parentDir (q ++ '/' :: s) = q := by
  unfold parentDir
  rw [hk]
  exact List.take_left q ('/' :: s)

/-- `findLastSlash` really returns the length of the part before the
last slash: on a string with a unique trailing decomposition both
candidate decompositions agree. -/
theorem findLastSlash_length (q s : Str) (hs : '/' ∉ s) :
    findLastSlash (q ++ '/' :: s) = some q.length := by
  induction q with
  | nil =>
    simp only [List.nil_append, findLastSlash,
      (findLastSlash_none s).mpr hs]
    rfl
  | cons c q' ih =>
    show findLastSlash (c :: (q' ++ '/' :: s)) = _
    rw [findLastSlash, ih]
    rfl

/-- Membership in the fueled ancestor walk coincides with the
strict-ancestor relation, for non-empty paths and adequate fuel. -/
theorem mem_ancestorsAux :
    ∀ (fuel : Nat) (p : Str), p.length < fuel → p ≠ [] →
      ∀ d, d ∈ ancestorsAux fuel p ↔ isStrictAncestor d p := by
  intro fuel
  induction fuel with
  | zero => intro p h; omega
  | succ fuel ih =>
    intro p hlen hne d
    cases hsl : findLastSlash p with
    | none =>
      have hq : parentDir p = [] := by simp [parentDir, hsl]
      rw [show ancestorsAux (fuel + 1) p = [[]] by rw [ancestorsAux, hq]; rfl]
      simp only [List.mem_singleton]
      constructor
      · intro h; exact Or.inl h
      · rintro (h | ⟨t, ht⟩)
        · exact h
        · exfalso
          exact (findLastSlash_none p).mp hsl (by rw [← ht]; simp)
    | some k =>
      rcases findLastSlash_decomp p k hsl with ⟨q, s, hp, hqlen, hs⟩
      have hqpar : parentDir p = q := by
        rw [hp]
        exact parentDir_decomp q s (findLastSlash_length q s hs)
      have hqpre : (q ++ ('/' :: [])) <+: p := ⟨s, by rw [hp]; simp⟩
      have hq_p : q <+: p := (List.prefix_append q ('/' :: [])).trans hqpre
      by_cases hq0 : q = []
      · subst hq0
        rw [show ancestorsAux (fuel + 1) p = [[]] by
          rw [ancestorsAux, hqpar]; rfl]
        simp only [List.mem_singleton]
        constructor
        · intro h; exact Or.inl h
        · rintro (h | ⟨t, ht⟩)
          · exact h
          · match d, ht with
            | [], _ => rfl
            | c :: d', ht =>
              exfalso
              rw [hp] at ht
              simp only [List.nil_append, List.cons_append,
                List.append_assoc] at ht
              injection ht with h1 h2
              exact hs (by rw [← h2]; simp)
      · rw [show ancestorsAux (fuel + 1) p = q :: ancestorsAux fuel q by
          rw [ancestorsAux, hqpar, if_neg hq0]]
        have hqlt : q.length < p.length := by
          rw [hp]; simp only [List.length_append, List.length_cons]; omega
        have hih := ih q (by omega) hq0 d
        rw [List.mem_cons, hih]
        constructor
        · rintro (h | h)
          · exact Or.inr (h ▸ hqpre)
          · rcases h with h | h
            · exact Or.inl h
            · exact Or.inr (h.trans hq_p)
        · rintro (h | h)
          · exact Or.inr (Or.inl h)
          · have hd_p : d <+: p := (List.prefix_append d ('/' :: [])).trans h
            rcases Nat.lt_trichotomy d.length q.length with hlt | heq | hgt
            · refine Or.inr (Or.inr ?_)
              refine List.prefix_of_prefix_length_le h hq_p ?_
              simp only [List.length_append, List.length_cons,
                List.length_nil]
              omega
            · left
              rw [List.prefix_iff_eq_take.mp hd_p, heq,
                ← List.prefix_iff_eq_take.mp hq_p]
            · exfalso
              have hqd : (q ++ ('/' :: [])) <+: d := by
                refine List.prefix_of_prefix_length_le hqpre hd_p ?_
                simp only [List.length_append, List.length_cons,
                  List.length_nil]
                omega
              rcases hqd with ⟨d', hd'⟩
              rcases h with ⟨t, ht⟩
              rw [← hd'] at ht
              rw [hp] at ht
              have hq' : q ++ ('/' :: (d' ++ '/' :: t))
                  = q ++ ('/' :: s) := by
                rw [← ht]
                simp [List.append_assoc]
              have hcl := List.append_cancel_left hq'
              injection hcl with hc1 hc2
              exact hs (by rw [← hc2]; simp)

/-- Membership in the rollup's ancestor walk is exactly the
strict-ancestor relation (non-empty file paths). -/
theorem mem_ancestors (p : Str) (hp : p ≠ []) (d : Str) :
    d ∈ ancestors p ↔ isStrictAncestor d p :=
  mem_ancestorsAux (p.length + 1) p (by omega) hp d

/-- C4.  For every key in the rollup table, the recorded character is a
status of one of the file paths strictly below that key, and its
priority dominates the priority of every file strictly below; the
priority order is `M > A > D > R > C > U > (any unknown) > I`; and a
single file `src/a/b.txt` with status `M` yields rollup `M` for
`src/a`, `src` and the root `""`. -/
theorem dir_rollup_max :
    (∀ (files : List (Str × Char)), (∀ pr ∈ files, pr.1 ≠ ([] : Str)) →
      ∀ (d : Str) (c : Char), buildDirStatus files d = some c →
        (∃ pr ∈ files, isStrictAncestor d pr.1 ∧ pr.2 = c) ∧
        (∀ pr ∈ files, isStrictAncestor d pr.1 →
          priority pr.2 ≤ priority c)) ∧
    (∀ ch : Char, ch ∉ ('M' :: 'A' :: 'D' :: 'R' :: 'C' :: 'U' :: 'I' :: []) →
      priority 'U' > priority ch ∧ priority ch > priority 'I') ∧
    (priority 'M' > priority 'A' ∧ priority 'A' > priority 'D' ∧
      priority 'D' > priority 'R' ∧ priority 'R' > priority 'C' ∧
      priority 'C' > priority 'U') ∧
    (buildDirStatus ((("src/a/b.txt".toList), 'M') :: [])
        ("src/a".toList) = some 'M' ∧
      buildDirStatus ((("src/a/b.txt".toList), 'M') :: [])
        ("src".toList) = some 'M' ∧
      buildDirStatus ((("src/a/b.txt".toList), 'M') :: [])
        ([] : Str) = some 'M') := by
  refine ⟨?_, ?_, by decide, by decide⟩
  · intro files hne d c h
    unfold buildDirStatus at h
    rw [buildAux_eval] at h
    have hs := statusFold_spec _ _ _ h
    constructor
    · rcases hs.1 with ⟨pr, hmem, hc⟩ | h0
      · have hmem' := List.mem_filter.mp hmem
        have hanc : d ∈ ancestors pr.1 := by
          have := hmem'.2
          simpa using this
        exact ⟨pr, hmem'.1,
          (mem_ancestors pr.1 (hne pr hmem'.1) d).mp hanc, hc⟩
      · exact absurd h0 (by simp [mapEmpty])
    · intro pr hmem hanc
      refine hs.2.1 pr (List.mem_filter.mpr ⟨hmem, ?_⟩)
      simp only [decide_eq_true_eq]
      exact (mem_ancestors pr.1 (hne pr hmem) d).mpr hanc
  · intro ch h
    simp only [List.mem_cons, not_or] at h
    obtain ⟨h1, h2, h3, h4, h5, h6, h7, _⟩ := h
    simp only [priority, if_neg h1, if_neg h2, if_neg h3, if_neg h4,
      if_neg h5, if_neg h6, if_neg h7]
    decide

/-- Witness for C4 at the single file `a/b.txt` with status `M` and the
directory key `a`. -/
theorem dir_rollup_max_witness :
    priority 'M' ≤ priority 'M' ∧
    buildDirStatus ((("a/b.txt".toList), 'M') :: []) ("a".toList)
      = some 'M' := by
  refine ⟨?_, by decide⟩
  exact (dir_rollup_max.1 ((("a/b.txt".toList), 'M') :: [])
    (by decide) ("a".toList) 'M' (by decide)).2
    ((("a/b.txt".toList)), 'M') (by simp)
    (Or.inr (by decide))

end Xtree
